import Mathlib

/-!
Verification of the natural-language specification of the
`whatsapp-goodmorning-bot` repository against its source.

The only component with algorithmic content is `send_once_pillow.py`.  Its
layout code calls the CPython standard-library function
`textwrap.wrap(quote_text, width=26)`, so that function's greedy wrapping
algorithm (with its default options `replace_whitespace=True`,
`drop_whitespace=True`, `break_long_words=True`) is embedded here as well,
operating on `List Char`.

Modelling notes, stated once:
* Python whitespace for `str.strip`, `\s` and `textwrap` is restricted to
  the six ASCII whitespace characters; every concrete input appearing in a
  theorem below is ASCII, where the two notions agree.
* `break_on_hyphens` only refines chunk boundaries inside maximal
  non-whitespace runs (it lets a chunk end after a hyphen).  The chunk
  splitter below produces the maximal whitespace / non-whitespace runs of
  `wordsep_re` for hyphen-free text; every concrete input used in a theorem
  is hyphen-free, and the general theorems proved about the wrapping loop
  (line length bounds, character provenance) are insensitive to how the
  non-whitespace runs are subdivided.  The hyphen search of
  `_handle_long_word` itself is embedded faithfully.
* The Python `while chunks:` loop is embedded with an explicit fuel
  argument; the fuel supplied by `wrapText` (total length + chunk count + 1)
  strictly dominates the loop's variant, each iteration consuming at least
  one unit of it, so the embedded loop never stops early.
-/

namespace GoodMorning

/-- The six ASCII whitespace characters recognised by Python's `str.strip`
and by `\s` (restricted to ASCII, see module comment). -/
def isPySpace (c : Char) : Bool :=
  c == ' ' || c == '\t' || c == '\n' || c == '\x0b' || c == '\x0c' || c == '\r'

/-- `chunk.strip() == ''` for a chunk: every character is whitespace
(true in particular for the empty chunk). -/
def isWSChunk (l : List Char) : Bool := l.all isPySpace

/-- The five characters translated to a space by
`TextWrapper._munge_whitespace` (the string `_whitespace` minus the space). -/
def isBadWS (c : Char) : Bool :=
  c == '\t' || c == '\n' || c == '\x0b' || c == '\x0c' || c == '\r'

/-- `str.expandtabs(8)`: tab stops every 8 columns, column reset on
newline and carriage return. -/
def expandtabsAux : Nat → List Char → List Char
  | _, [] => []
  | col, c :: cs =>
    if c = '\t' then
      let incr := 8 - col % 8
      List.replicate incr ' ' ++ expandtabsAux (col + incr) cs
    else if c = '\n' ∨ c = '\r' then c :: expandtabsAux 0 cs
    else c :: expandtabsAux (col + 1) cs

/-- `TextWrapper._munge_whitespace` with the default options: expand tabs,
then translate each of `\t\n\x0b\x0c\r` to a space. -/
def munge (t : List Char) : List Char :=
  (expandtabsAux 0 t).map (fun c => if isBadWS c then ' ' else c)

/-- Maximal runs of whitespace / non-whitespace characters: the chunks
produced by `TextWrapper._split` (see module comment about hyphens). -/
def splitRuns : List Char → List (List Char)
  | [] => []
  | c :: cs =>
    match splitRuns cs with
    | [] => [[c]]
    | [] :: rs => [c] :: [] :: rs
    | (d :: r) :: rs =>
      if isPySpace c = isPySpace d then (c :: d :: r) :: rs
      else [c] :: (d :: r) :: rs

/-- Trailing-whitespace removal, the right half of Python `str.strip()`. -/
def stripTrailingWS : List Char → List Char
  | [] => []
  | c :: cs =>
    match stripTrailingWS cs with
    | [] => if isPySpace c then [] else [c]
    | d :: ds => c :: d :: ds

/-- Python `str.strip()`: leading and trailing whitespace removed. -/
def pyStrip (l : List Char) : List Char :=
  stripTrailingWS (l.dropWhile isPySpace)

/-- The inner greedy loop of `_wrap_chunks`: take chunks from the front
while the accumulated length stays within `width`. -/
def greedyTake (width : Nat) : Nat → List (List Char) → List (List Char) × List (List Char)
  | _, [] => ([], [])
  | curLen, c :: cs =>
    if curLen + c.length ≤ width then
      let pr := greedyTake width (curLen + c.length) cs
      (c :: pr.1, pr.2)
    else ([], c :: cs)

/-- `chunk.rfind('-', 0, stop)` as an option: the largest index `< stop`
holding a hyphen. -/
def rfindHyphen (chunk : List Char) (stop : Nat) : Option Nat :=
  (List.range (min stop chunk.length)).reverse.find? (fun i => chunk.getD i ' ' == '-')

/-- The break index chosen by `_handle_long_word`: `space_left`, or just
after the last hyphen before it when `break_on_hyphens` applies. -/
def hlwEnd (spaceLeft : Nat) (chunk : List Char) : Nat :=
  if spaceLeft < chunk.length then
    match rfindHyphen chunk spaceLeft with
    | some h => if 0 < h ∧ (chunk.take h).any (fun c => !(c == '-')) then h + 1 else spaceLeft
    | none => spaceLeft
  else spaceLeft

/-- `TextWrapper._handle_long_word` with `break_long_words=True` and
`break_on_hyphens=True`: returns the piece moved onto the current line and
the remainder put back in front of the chunks. -/
def handleLongWord (width curLen : Nat) (chunk : List Char) : List Char × List Char :=
  let spaceLeft := if width < 1 then 1 else width - curLen
  (chunk.take (hlwEnd spaceLeft chunk), chunk.drop (hlwEnd spaceLeft chunk))

/-- `del cur_line[-1]` when the last piece of the line is pure whitespace
(`drop_whitespace=True`). -/
def dropTrailingWS : List (List Char) → List (List Char)
  | [] => []
  | [c] => if isWSChunk c then [] else [c]
  | c :: c2 :: cs => c :: dropTrailingWS (c2 :: cs)

/-- A nonempty current line becomes an output line (`''.join(cur_line)`). -/
def emitLine : List (List Char) → Option (List Char)
  | [] => none
  | d :: ds => some ((d :: ds).flatten)

/-- Tail of one iteration of `_wrap_chunks` after the inner greedy loop:
possibly break a long word, drop a trailing whitespace piece, emit the line.
Returns the emitted line (if any) and the remaining chunks. -/
def wrapCore (width : Nat) : List (List Char) × List (List Char) → Option (List Char) × List (List Char)
  | (taken, []) => (emitLine (dropTrailingWS taken), [])
  | (taken, c :: cs) =>
    if width < c.length then
      let pr := handleLongWord width ((taken.map List.length).sum) c
      (emitLine (dropTrailingWS (taken ++ [pr.1])), pr.2 :: cs)
    else (emitLine (dropTrailingWS taken), c :: cs)

/-- One full iteration of the `while chunks:` loop of `_wrap_chunks`:
drop a leading whitespace chunk (only once some line exists), run the
greedy loop, then `wrapCore`. -/
def wrapStep (width : Nat) (c0 : List Char) (cs0 : List (List Char)) (hasLines : Bool) :
    Option (List Char) × List (List Char) :=
  let chunks1 := if hasLines && isWSChunk c0 then cs0 else c0 :: cs0
  wrapCore width (greedyTake width 0 chunks1)

/-- The `while chunks:` loop of `_wrap_chunks`, with explicit fuel
(see module comment: the fuel supplied by `wrapText` is sufficient). -/
def wrapFuel (width : Nat) : Nat → List (List Char) → Bool → List (List Char)
  | 0, _, _ => []
  | _ + 1, [], _ => []
  | fuel + 1, c0 :: cs0, hasLines =>
    match wrapStep width c0 cs0 hasLines with
    | (none, rest2) => wrapFuel width fuel rest2 hasLines
    | (some line, rest2) => line :: wrapFuel width fuel rest2 true

/-- Loop variant: total chunk length plus chunk count. -/
def chunksMeasure (chunks : List (List Char)) : Nat :=
  (chunks.map List.length).sum + chunks.length

/-- `textwrap.wrap(text, width)` on character lists: munge whitespace,
split into chunks, run the wrapping loop. -/
def wrapText (width : Nat) (text : List Char) : List (List Char) :=
  let chunks := splitRuns (munge text)
  wrapFuel width (chunksMeasure chunks + 1) chunks false

/-- `textwrap.wrap(text, width)` on strings, mirroring the call
`textwrap.wrap(quote_text, width=26)` of `compose_image_with_pillow`. -/
def textwrapWrap (text : String) (width : Nat) : List String :=
  (wrapText width text.data).map (fun l => String.mk l)

/-- Chunks of `n` characters (used to describe how `textwrap` breaks an
over-long word), with explicit fuel. -/
def chunksOfFuel (n : Nat) : Nat → List Char → List (List Char)
  | 0, _ => []
  | _ + 1, [] => []
  | f + 1, c :: cs => (c :: cs).take n :: chunksOfFuel n f ((c :: cs).drop n)

/-- Chunks of `n` characters; `l.length` is sufficient fuel for `n ≥ 1`. -/
def chunksOf (n : Nat) (l : List Char) : List (List Char) :=
  chunksOfFuel n l.length l

/-- A font value as produced by `_load_font`: either a truetype font from a
path or `ImageFont.load_default()`. -/
inductive PillowFont where
  | truetype (path : String) (size : Nat)
  | defaultFont
  deriving DecidableEq, Repr

/-- The candidate font paths of `_load_font`, by the `script` flag. -/
def fontCandidates (script : Bool) : List String :=
  if script then
    [("C:/Windows/Fonts/Segoe Script.ttf"),
     ("C:/Windows/Fonts/segoesc.ttf"),
     ("/System/Library/Fonts/Supplemental/SnellRoundhand.ttf"),
     ("/System/Library/Fonts/Supplemental/Brush Script.ttf")]
  else
    [("C:/Windows/Fonts/SegoeUI.ttf"),
     ("C:/Windows/Fonts/Arial.ttf"),
     ("/usr/share/fonts/truetype/dejavu/DejaVuSans.ttf"),
     ("/System/Library/Fonts/Supplemental/Arial.ttf")]

/-- `_load_font(size, script)`: the first candidate whose path exists
(`pathExists` models `os.path.exists`), else the default font.  The
function is total: it never raises. -/
def loadFont (pathExists : String → Bool) (size : Nat) (script : Bool) : PillowFont :=
  match (fontCandidates script).find? pathExists with
  | some p => PillowFont.truetype p size
  | none => PillowFont.defaultFont

/-- The fixed title string drawn by `compose_image_with_pillow`. -/
def titleText : List Char := ("Good morning").data

/-- Everything `compose_image_with_pillow` computes about geometry before
drawing: font sizes, wrapped lines, card box, title position and per-line
draw positions.  Coordinates are as in the source: `x0 = margin`,
`y0 = H//2 - box_height//2` (which may be negative, hence `Int`). -/
structure LayoutResult where
  titleFontSize : Nat
  bodyFontSize : Nat
  bodyLines : List (List Char)
  boxX0 : Int
  boxY0 : Int
  boxWidth : Nat
  boxHeight : Nat
  titleX : Int
  titleY : Int
  linePos : List (Int × Int)
  deriving DecidableEq, Repr

/-- Per-line draw positions: each line is centred (`W//2 - lw//2`) and
`text_y` advances by `lh + 10` after each line. -/
def linePositions (W : Nat) : Int → List (Nat × Nat) → List (Int × Int)
  | _, [] => []
  | textY, (lw, lh) :: rest =>
    (((W / 2 : Nat) : Int) - ((lw / 2 : Nat) : Int), textY) ::
      linePositions W (textY + (lh : Int) + 10) rest

/-- The layout computation of `compose_image_with_pillow` (lines 236-295 of
`send_once_pillow.py`), with text measurement abstracted as a function
`measure text fontSize script = (width, height)` standing for
`draw.textbbox((0,0), text, font)` width/height differences with the font
loaded at that size and script flag.  `margin = int(W * 0.08)` is embedded
as `W * 8 / 100`, which agrees with the float computation at every canvas
width used in a theorem below (`W = 1024` gives 81 both ways). -/
def computeLayout (W H : Nat) (measure : List Char → Nat → Bool → Nat × Nat)
    (quote : List Char) : LayoutResult :=
  let titleFS := max 48 (W / 12)
  let bodyFS := max 32 (W / 22)
  let bodyLines := wrapText 26 quote
  let tbox := measure titleText titleFS true
  let lineSizes := bodyLines.map (fun l => measure l bodyFS false)
  let lineHeights := lineSizes.map (fun p => p.2)
  let bodyH := lineHeights.sum + 10 * (lineHeights.length - 1)
  let margin := W * 8 / 100
  let boxH := tbox.2 + 30 + bodyH + 40
  let y0 : Int := ((H / 2 : Nat) : Int) - ((boxH / 2 : Nat) : Int)
  let titleY : Int := y0 + 20
  { titleFontSize := titleFS
    bodyFontSize := bodyFS
    bodyLines := bodyLines
    boxX0 := (margin : Int)
    boxY0 := y0
    boxWidth := W - 2 * margin
    boxHeight := boxH
    titleX := ((W / 2 : Nat) : Int) - ((tbox.1 / 2 : Nat) : Int)
    titleY := titleY
    linePos := linePositions W (titleY + (tbox.2 : Int) + 15) lineSizes }

/-- `MAX_RETRIES = 8`, the retry bound for the Unsplash API fetch. -/
def MAX_RETRIES : Nat := 8

/-- One run of the retry loop of `_fetch_unsplash_via_api`.  The outcome of
attempt `i` is abstracted as `outcome i` (`some img` models a 200 response
whose image decodes; `none` models a non-200 status or an exception, both of
which sleep 0.8 s and continue).  Returns the result, the number of the
last attempt made, and the list of sleep durations in milliseconds. -/
def fetchGo {Img : Type} (outcome : Nat → Option Img) :
    Nat → Nat → List Nat → Except String Img × Nat × List Nat
  | attempt, 0, sleeps => (Except.error ("Failed to fetch an Unsplash image via API after retries."), attempt - 1, sleeps)
  | attempt, rem + 1, sleeps =>
    match outcome attempt with
    | some img => (Except.ok img, attempt, sleeps)
    | none => fetchGo outcome (attempt + 1) rem (sleeps ++ [800])

/-- `_fetch_unsplash_via_api`: attempts numbered 1 to `MAX_RETRIES`. -/
def fetchUnsplash {Img : Type} (outcome : Nat → Option Img) :
    Except String Img × Nat × List Nat :=
  fetchGo outcome 1 MAX_RETRIES []

/-- Characters removed from the front of a quote line by the regex
`^[\-\*\d\.\)\s]+` of `get_quote_via_api`. -/
def isBulletChar (c : Char) : Bool :=
  c == '-' || c == '*' || c.isDigit || c == '.' || c == ')' || isPySpace c

/-- `re.sub(r'^[\-\*\d\.\)\s]+', '', line).strip()`. -/
def cleanBullet (l : List Char) : List Char :=
  pyStrip (l.dropWhile isBulletChar)

/-- Python `s.split("\n")`: split at every newline, keeping empty parts. -/
def splitOnNewline : List Char → List (List Char)
  | [] => [[]]
  | c :: cs =>
    if c = '\n' then [] :: splitOnNewline cs
    else
      match splitOnNewline cs with
      | [] => [[c]]
      | l :: ls => (c :: l) :: ls

/-- `[line.strip() for line in raw.split("\n") if line.strip()]` where
`raw` is the stripped API response content. -/
def quoteLines (content : List Char) : List (List Char) :=
  ((splitOnNewline (pyStrip content)).map pyStrip).filter (fun l => !l.isEmpty)

/-- The `cleaned` list of `get_quote_via_api`: bullet-stripped nonempty
lines. -/
def cleanedQuotes (content : List Char) : List (List Char) :=
  ((quoteLines content).map cleanBullet).filter (fun l => !l.isEmpty)

/-- The static fallback quote of `get_quote_via_api`. -/
def fallbackQuote : List Char :=
  ("Discipline builds the life that motivation only talks about.").data

/-- `get_quote_via_api` after the chat completion returned `content`:
clean the lines; if nothing remains return the static fallback, otherwise
`random.choice(cleaned)`, abstracted as `choose`. -/
def getQuoteViaApi (content : List Char) (choose : List (List Char) → List Char) : List Char :=
  let cleaned := cleanedQuotes content
  if cleaned.isEmpty then fallbackQuote else choose cleaned

/-- The keyword dictionary passed to `twilio.messages.create` by
`send_whatsapp`. -/
structure MessageKwargs where
  from_ : String
  to_ : String
  mediaUrl : List String
  body : Option String
  deriving DecidableEq, Repr

/-- `send_whatsapp(caption, media_url)`: the `body` key is included exactly
when `caption.strip()` is truthy (nonempty). -/
def sendWhatsapp (fromAddr toAddr caption mediaUrl : String) : MessageKwargs :=
  { from_ := fromAddr
    to_ := toAddr
    mediaUrl := [mediaUrl]
    body := if (pyStrip caption.data).isEmpty then none else some caption }

lemma stripTrailingWS_cons_of_nil (c : Char) (cs : List Char) (h : stripTrailingWS cs = []) :
    stripTrailingWS (c :: cs) = if isPySpace c then [] else [c] := by
  unfold stripTrailingWS
  rw [h]

lemma stripTrailingWS_cons_of_cons (c d : Char) (ds cs : List Char)
    (h : stripTrailingWS cs = d :: ds) :
    stripTrailingWS (c :: cs) = c :: d :: ds := by
  unfold stripTrailingWS
  rw [h]

lemma stripTrailingWS_eq_nil_iff (l : List Char) :
    stripTrailingWS l = [] ↔ ∀ c ∈ l, isPySpace c = true := by
  induction l with
  | nil => simp [stripTrailingWS]
  | cons c cs ih =>
    cases h : stripTrailingWS cs with
    | nil =>
      rw [stripTrailingWS_cons_of_nil c cs h]
      have hall := ih.mp h
      by_cases hc : isPySpace c = true
      · rw [if_pos hc]
        constructor
        · intro _ x hx
          rcases List.mem_cons.mp hx with e | hm
          · rw [e]; exact hc
          · exact hall x hm
        · intro _; rfl
      · rw [if_neg hc]
        constructor
        · intro hfalse; cases hfalse
        · intro hcall
          exact absurd (hcall c (List.mem_cons_self _ _)) hc
    | cons d ds =>
      rw [stripTrailingWS_cons_of_cons c d ds cs h]
      constructor
      · intro hfalse; cases hfalse
      · intro hcall
        have h0 : stripTrailingWS cs = [] :=
          ih.mpr (fun x hx => hcall x (List.mem_cons_of_mem _ hx))
        rw [h0] at h; cases h

lemma stripTrailingWS_eq_self (l : List Char) (h : ∀ c ∈ l, isPySpace c = false) :
    stripTrailingWS l = l := by
  induction l with
  | nil => rfl
  | cons c cs ih =>
    have hcs : stripTrailingWS cs = cs := ih (fun x hx => h x (List.mem_cons_of_mem _ hx))
    cases cs with
    | nil =>
      rw [stripTrailingWS_cons_of_nil c [] rfl, if_neg]
      simp [h c (List.mem_cons_self _ _)]
    | cons d ds =>
      rw [stripTrailingWS_cons_of_cons c d ds (d :: ds) hcs]

lemma pyStrip_eq_nil_iff (l : List Char) :
    pyStrip l = [] ↔ ∀ c ∈ l, isPySpace c = true := by
  unfold pyStrip
  rw [stripTrailingWS_eq_nil_iff]
  constructor
  · intro h c hc
    by_cases hw : isPySpace c = true
    · exact hw
    · exfalso
      have hmem : c ∈ l.dropWhile isPySpace := by
        have hsplit := List.takeWhile_append_dropWhile (p := isPySpace) (l := l)
        rcases List.mem_append.mp (by rw [hsplit]; exact hc) with h1 | h2
        · exact absurd (List.mem_takeWhile_imp h1) hw
        · exact h2
      exact hw (h c hmem)
  · intro h c hc
    exact h c ((List.dropWhile_sublist _).subset hc)

lemma splitRuns_cons_of_nil (c : Char) (cs : List Char) (h : splitRuns cs = []) :
    splitRuns (c :: cs) = [[c]] := by
  unfold splitRuns
  rw [h]

lemma splitRuns_cons_of_same (c d : Char) (r : List Char) (rs : List (List Char))
    (cs : List Char)
    (h : splitRuns cs = (d :: r) :: rs) (hws : isPySpace c = isPySpace d) :
    splitRuns (c :: cs) = (c :: d :: r) :: rs := by
  unfold splitRuns
  rw [h]
  simp [hws]

lemma splitRuns_cons_of_diff (c d : Char) (r : List Char) (rs : List (List Char))
    (cs : List Char)
    (h : splitRuns cs = (d :: r) :: rs) (hws : ¬ isPySpace c = isPySpace d) :
    splitRuns (c :: cs) = [c] :: (d :: r) :: rs := by
  unfold splitRuns
  rw [h]
  simp [hws]

lemma splitRuns_eq_nil_iff (l : List Char) : splitRuns l = [] ↔ l = [] := by
  cases l with
  | nil => simp [splitRuns]
  | cons c cs =>
    constructor
    · intro h
      exfalso
      cases hcs : splitRuns cs with
      | nil => rw [splitRuns_cons_of_nil c cs hcs] at h; cases h
      | cons r rs =>
        cases r with
        | nil =>
          unfold splitRuns at h
          rw [hcs] at h; cases h
        | cons d r0 =>
          by_cases hws : isPySpace c = isPySpace d
          · rw [splitRuns_cons_of_same c d r0 rs cs hcs hws] at h; cases h
          · rw [splitRuns_cons_of_diff c d r0 rs cs hcs hws] at h; cases h
    · intro h; cases h

lemma splitRuns_ne_nil (l : List Char) : ∀ r ∈ splitRuns l, r ≠ [] := by
  induction l with
  | nil => simp [splitRuns]
  | cons c cs ih =>
    cases h : splitRuns cs with
    | nil =>
      rw [splitRuns_cons_of_nil c cs h]
      simp
    | cons r rs =>
      cases r with
      | nil => exact absurd rfl (ih [] (h ▸ List.mem_cons_self _ _))
      | cons d r0 =>
        by_cases hws : isPySpace c = isPySpace d
        · rw [splitRuns_cons_of_same c d r0 rs cs h hws]
          intro x hx
          rcases List.mem_cons.mp hx with e | hm
          · subst e; simp
          · exact ih x (h ▸ List.mem_cons_of_mem _ hm)
        · rw [splitRuns_cons_of_diff c d r0 rs cs h hws]
          intro x hx
          rcases List.mem_cons.mp hx with e | hm
          · subst e; simp
          · exact ih x (h ▸ hm)

lemma splitRuns_flatten (l : List Char) : (splitRuns l).flatten = l := by
  induction l with
  | nil => rfl
  | cons c cs ih =>
    cases h : splitRuns cs with
    | nil =>
      rw [splitRuns_cons_of_nil c cs h]
      rw [h] at ih
      simp only [List.flatten_nil] at ih
      simp [← ih]
    | cons r rs =>
      cases r with
      | nil => exact absurd rfl (splitRuns_ne_nil cs [] (h ▸ List.mem_cons_self _ _))
      | cons d r0 =>
        rw [h] at ih
        by_cases hws : isPySpace c = isPySpace d
        · rw [splitRuns_cons_of_same c d r0 rs cs h hws]
          simp only [List.flatten_cons] at ih ⊢
          simp [ih]
        · rw [splitRuns_cons_of_diff c d r0 rs cs h hws]
          simp only [List.flatten_cons] at ih ⊢
          simp [ih]

lemma splitRuns_homog (l : List Char) :
    ∀ r ∈ splitRuns l, ∀ x ∈ r, ∀ y ∈ r, isPySpace x = isPySpace y := by
  induction l with
  | nil => simp [splitRuns]
  | cons c cs ih =>
    cases h : splitRuns cs with
    | nil =>
      rw [splitRuns_cons_of_nil c cs h]
      intro r hr x hx y hy
      simp only [List.mem_singleton] at hr
      subst hr
      simp only [List.mem_singleton] at hx hy
      rw [hx, hy]
    | cons r rs =>
      cases r with
      | nil => exact absurd rfl (splitRuns_ne_nil cs [] (h ▸ List.mem_cons_self _ _))
      | cons d r0 =>
        have hdr : ∀ x ∈ d :: r0, isPySpace x = isPySpace d := fun x hx =>
          ih (d :: r0) (h ▸ List.mem_cons_self _ _) x hx d (List.mem_cons_self _ _)
        by_cases hws : isPySpace c = isPySpace d
        · rw [splitRuns_cons_of_same c d r0 rs cs h hws]
          intro r hr x hx y hy
          rcases List.mem_cons.mp hr with e | hm
          · subst e
            have hx2 : isPySpace x = isPySpace d := by
              rcases List.mem_cons.mp hx with e2 | hm2
              · rw [e2, hws]
              · exact hdr x hm2
            have hy2 : isPySpace y = isPySpace d := by
              rcases List.mem_cons.mp hy with e2 | hm2
              · rw [e2, hws]
              · exact hdr y hm2
            rw [hx2, hy2]
          · exact ih r (h ▸ List.mem_cons_of_mem _ hm) x hx y hy
        · rw [splitRuns_cons_of_diff c d r0 rs cs h hws]
          intro r hr x hx y hy
          rcases List.mem_cons.mp hr with e | hm
          · subst e
            simp only [List.mem_singleton] at hx hy
            rw [hx, hy]
          · exact ih r (h ▸ hm) x hx y hy

lemma dropTrailingWS_cons_cons (a b : List Char) (rest : List (List Char)) :
    dropTrailingWS (a :: b :: rest) = a :: dropTrailingWS (b :: rest) := rfl

lemma dropT_splitRuns_flatten (l : List Char) :
    (dropTrailingWS (splitRuns l)).flatten = stripTrailingWS l := by
  induction l with
  | nil => rfl
  | cons c cs ih =>
    cases h : splitRuns cs with
    | nil =>
      have hcs : cs = [] := (splitRuns_eq_nil_iff cs).mp h
      subst hcs
      rw [splitRuns_cons_of_nil c [] rfl, stripTrailingWS_cons_of_nil c [] rfl]
      by_cases hc : isPySpace c = true
      · have hwsc : isWSChunk [c] = true := by simp [isWSChunk, hc]
        simp [dropTrailingWS, hwsc, hc]
      · have hwsc : isWSChunk [c] = false := by
          simp only [isWSChunk, List.all_cons, List.all_nil, Bool.and_true]
          exact Bool.eq_false_iff.mpr hc
        simp [dropTrailingWS, hwsc, hc]
    | cons r rs =>
      cases r with
      | nil => exact absurd rfl (splitRuns_ne_nil cs [] (h ▸ List.mem_cons_self _ _))
      | cons d r0 =>
        rw [h] at ih
        have hcseq : (d :: r0) ++ rs.flatten = cs := by
          have hfl := splitRuns_flatten cs
          rw [h] at hfl
          simpa using hfl
        by_cases hws : isPySpace c = isPySpace d
        · rw [splitRuns_cons_of_same c d r0 rs cs h hws]
          cases rs with
          | nil =>
            have hdr : ∀ x ∈ d :: r0, isPySpace x = isPySpace d := fun x hx =>
              splitRuns_homog cs (d :: r0) (h ▸ List.mem_cons_self _ _) x hx d
                (List.mem_cons_self _ _)
            have hcs2 : cs = d :: r0 := by simpa using hcseq.symm
            by_cases hd : isPySpace d = true
            · have hallcs : ∀ x ∈ c :: cs, isPySpace x = true := by
                intro x hx
                rcases List.mem_cons.mp hx with e | hm
                · rw [e, hws, hd]
                · rw [hcs2] at hm; rw [hdr x hm, hd]
              have hws2 : isWSChunk (c :: d :: r0) = true := by
                unfold isWSChunk
                rw [List.all_eq_true]
                intro x hx
                exact hallcs x (by rw [hcs2]; exact hx)
              rw [(stripTrailingWS_eq_nil_iff (c :: cs)).mpr hallcs]
              simp [dropTrailingWS, hws2]
            · have hallcs : ∀ x ∈ c :: cs, isPySpace x = false := by
                intro x hx
                rcases List.mem_cons.mp hx with e | hm
                · rw [e, hws]; exact Bool.eq_false_iff.mpr hd
                · rw [hcs2] at hm; rw [hdr x hm]
                  exact Bool.eq_false_iff.mpr hd
              have hws2 : isWSChunk (c :: d :: r0) = false := by
                unfold isWSChunk
                apply Bool.eq_false_iff.mpr
                intro hall
                rw [List.all_eq_true] at hall
                have h1 := hall c (List.mem_cons_self _ _)
                have h2 := hallcs c (List.mem_cons_self _ _)
                rw [h1] at h2; cases h2
              rw [stripTrailingWS_eq_self (c :: cs) hallcs]
              simp [dropTrailingWS, hws2, hcs2]
          | cons r1 rest =>
            rw [dropTrailingWS_cons_cons (d :: r0) r1 rest, List.flatten_cons] at ih
            have hne : stripTrailingWS cs ≠ [] := by
              rw [← ih]; simp
            cases hst : stripTrailingWS cs with
            | nil => exact absurd hst hne
            | cons e es =>
              rw [hst] at ih
              rw [stripTrailingWS_cons_of_cons c e es cs hst]
              rw [dropTrailingWS_cons_cons (c :: d :: r0) r1 rest, List.flatten_cons,
                List.cons_append, ih]
        · rw [splitRuns_cons_of_diff c d r0 rs cs h hws]
          have hd_mem : d ∈ cs := by
            rw [← hcseq]; exact List.mem_append_left _ (List.mem_cons_self _ _)
          rw [dropTrailingWS_cons_cons [c] (d :: r0) rs, List.flatten_cons, ih]
          cases hst : stripTrailingWS cs with
          | nil =>
            have hall := (stripTrailingWS_eq_nil_iff cs).mp hst
            have hdws : isPySpace d = true := hall d hd_mem
            have hcws : ¬ isPySpace c = true := by
              intro hcv
              exact hws (by rw [hcv, hdws])
            rw [stripTrailingWS_cons_of_nil c cs hst, if_neg hcws]
            simp
          | cons e es =>
            rw [stripTrailingWS_cons_of_cons c e es cs hst]
            simp

lemma greedyTake_append (width : Nat) :
    ∀ (curLen : Nat) (l : List (List Char)),
      (greedyTake width curLen l).1 ++ (greedyTake width curLen l).2 = l := by
  intro curLen l
  induction l generalizing curLen with
  | nil => simp [greedyTake]
  | cons c cs ih =>
    by_cases h : curLen + c.length ≤ width
    · simp only [greedyTake, if_pos h]
      simpa using ih (curLen + c.length)
    · simp [greedyTake, if_neg h]

lemma greedyTake_sum (width : Nat) :
    ∀ (curLen : Nat) (l : List (List Char)), curLen ≤ width →
      curLen + (((greedyTake width curLen l).1.map List.length).sum) ≤ width := by
  intro curLen l
  induction l generalizing curLen with
  | nil => intro h; simpa [greedyTake]
  | cons c cs ih =>
    intro h
    by_cases hc : curLen + c.length ≤ width
    · have := ih (curLen + c.length) hc
      simp only [greedyTake, if_pos hc, List.map_cons, List.sum_cons]
      omega
    · simp only [greedyTake, if_neg hc, List.map_nil, List.sum_nil]
      omega

lemma greedyTake_all (width : Nat) :
    ∀ (curLen : Nat) (l : List (List Char)),
      curLen + ((l.map List.length).sum) ≤ width → greedyTake width curLen l = (l, []) := by
  intro curLen l
  induction l generalizing curLen with
  | nil => intro _; rfl
  | cons c cs ih =>
    intro h
    simp only [List.map_cons, List.sum_cons] at h
    have hc : curLen + c.length ≤ width := by omega
    simp only [greedyTake, if_pos hc]
    rw [ih (curLen + c.length) (by omega)]

lemma rfindHyphen_lt_stop (chunk : List Char) (stop h : Nat)
    (hf : rfindHyphen chunk stop = some h) : h < stop := by
  unfold rfindHyphen at hf
  have hmem := List.mem_of_find?_eq_some hf
  rw [List.mem_reverse, List.mem_range] at hmem
  have hle : min stop chunk.length ≤ stop := min_le_left _ _
  omega

lemma hlwEnd_le (spaceLeft : Nat) (chunk : List Char) : hlwEnd spaceLeft chunk ≤ spaceLeft := by
  unfold hlwEnd
  split
  · split
    · rename_i hnum hf
      have hlt := rfindHyphen_lt_stop chunk spaceLeft hnum hf
      split
      · omega
      · exact le_refl _
    · exact le_refl _
  · exact le_refl _

lemma handleLongWord_fst_length (width curLen : Nat) (chunk : List Char)
    (h1 : 1 ≤ width) :
    (handleLongWord width curLen chunk).1.length ≤ width - curLen := by
  unfold handleLongWord
  have hsl : (if width < 1 then 1 else width - curLen) = width - curLen :=
    if_neg (by omega)
  rw [hsl]
  have hend := hlwEnd_le (width - curLen) chunk
  simp only [List.length_take]
  omega

lemma dropTrailingWS_subset (ls : List (List Char)) :
    ∀ r ∈ dropTrailingWS ls, r ∈ ls := by
  induction ls with
  | nil => simp [dropTrailingWS]
  | cons a rest ih =>
    cases rest with
    | nil =>
      intro r hr
      by_cases h : isWSChunk a = true
      · rw [show dropTrailingWS [a] = if isWSChunk a then [] else [a] from rfl, if_pos h] at hr
        simp at hr
      · rw [show dropTrailingWS [a] = if isWSChunk a then [] else [a] from rfl, if_neg h] at hr
        exact hr
    | cons b rest2 =>
      intro r hr
      rw [dropTrailingWS_cons_cons] at hr
      rcases List.mem_cons.mp hr with e | hm
      · rw [e]; exact List.mem_cons_self _ _
      · exact List.mem_cons_of_mem _ (ih r hm)

lemma dropTrailingWS_flatten_length (ls : List (List Char)) :
    (dropTrailingWS ls).flatten.length ≤ ls.flatten.length := by
  induction ls with
  | nil => simp [dropTrailingWS]
  | cons a rest ih =>
    cases rest with
    | nil =>
      by_cases h : isWSChunk a = true <;>
        simp [show dropTrailingWS [a] = if isWSChunk a then [] else [a] from rfl, h]
    | cons b rest2 =>
      rw [dropTrailingWS_cons_cons]
      simp only [List.flatten_cons, List.length_append] at ih ⊢
      omega

lemma emitLine_eq_some (ls : List (List Char)) (line : List Char)
    (h : emitLine ls = some line) : line = ls.flatten := by
  cases ls with
  | nil => cases h
  | cons d ds =>
    simp only [emitLine, Option.some.injEq] at h
    exact h.symm

lemma wrapCore_line_len (width : Nat) (h1 : 1 ≤ width) (taken rest : List (List Char))
    (hsum : (taken.map List.length).sum ≤ width)
    {line : List Char} {rest2 : List (List Char)}
    (h : wrapCore width (taken, rest) = (some line, rest2)) :
    line.length ≤ width := by
  have hback : ∀ ls : List (List Char), (ls.map List.length).sum ≤ width →
      ∀ li : List Char, emitLine (dropTrailingWS ls) = some li → li.length ≤ width := by
    intro ls hls li hli
    have he := emitLine_eq_some _ _ hli
    rw [he]
    calc (dropTrailingWS ls).flatten.length ≤ ls.flatten.length :=
          dropTrailingWS_flatten_length ls
      _ = (ls.map List.length).sum := List.length_flatten ls
      _ ≤ width := hls
  cases rest with
  | nil =>
    simp only [wrapCore] at h
    rw [Prod.mk.injEq] at h
    exact hback taken hsum line h.1
  | cons c cs =>
    by_cases hc : width < c.length
    · simp only [wrapCore, if_pos hc] at h
      rw [Prod.mk.injEq] at h
      have hp := handleLongWord_fst_length width ((taken.map List.length).sum) c h1
      refine hback (taken ++ [(handleLongWord width ((taken.map List.length).sum) c).1]) ?_ line h.1
      simp only [List.map_append, List.sum_append, List.map_cons, List.sum_cons,
        List.map_nil, List.sum_nil]
      omega
    · simp only [wrapCore, if_neg hc] at h
      rw [Prod.mk.injEq] at h
      exact hback taken hsum line h.1

lemma wrapStep_line_len (width : Nat) (h1 : 1 ≤ width) (c0 : List Char)
    (cs0 : List (List Char)) (hl : Bool) {line : List Char} {rest2 : List (List Char)}
    (h : wrapStep width c0 cs0 hl = (some line, rest2)) : line.length ≤ width := by
  simp only [wrapStep] at h
  rcases hgt : greedyTake width 0 (if hl && isWSChunk c0 then cs0 else c0 :: cs0)
    with ⟨taken, rest⟩
  rw [hgt] at h
  have hsum : (taken.map List.length).sum ≤ width := by
    have := greedyTake_sum width 0 (if hl && isWSChunk c0 then cs0 else c0 :: cs0)
      (Nat.zero_le _)
    rw [hgt] at this
    simpa using this
  exact wrapCore_line_len width h1 taken rest hsum h

lemma wrapFuel_nil (width : Nat) (fuel : Nat) (hl : Bool) :
    wrapFuel width fuel [] hl = [] := by
  cases fuel <;> rfl

lemma wrapFuel_line_len (width : Nat) (h1 : 1 ≤ width) :
    ∀ (fuel : Nat) (chunks : List (List Char)) (hl : Bool) (L : List Char),
      L ∈ wrapFuel width fuel chunks hl → L.length ≤ width := by
  intro fuel
  induction fuel with
  | zero => intro chunks hl L hL; simp [wrapFuel] at hL
  | succ f ih =>
    intro chunks hl L hL
    cases chunks with
    | nil => rw [wrapFuel_nil] at hL; simp at hL
    | cons c0 cs0 =>
      rw [wrapFuel] at hL
      rcases hstep : wrapStep width c0 cs0 hl with ⟨o, rest2⟩
      rw [hstep] at hL
      cases o with
      | none => exact ih rest2 hl L hL
      | some line =>
        rcases List.mem_cons.mp hL with e | hm
        · rw [e]; exact wrapStep_line_len width h1 c0 cs0 hl hstep
        · exact ih rest2 true L hm

lemma wrapCore_chars (width : Nat) (taken rest : List (List Char))
    {o : Option (List Char)} {rest2 : List (List Char)}
    (h : wrapCore width (taken, rest) = (o, rest2)) :
    (∀ line, o = some line → ∀ x ∈ line, x ∈ taken.flatten ∨ x ∈ rest.flatten) ∧
    (∀ x ∈ rest2.flatten, x ∈ taken.flatten ∨ x ∈ rest.flatten) := by
  have hemit : ∀ ls : List (List Char), ∀ li : List Char,
      emitLine (dropTrailingWS ls) = some li → ∀ x ∈ li, x ∈ ls.flatten := by
    intro ls li hli x hx
    rw [emitLine_eq_some _ _ hli] at hx
    rcases List.mem_flatten.mp hx with ⟨r, hr, hxr⟩
    exact List.mem_flatten.mpr ⟨r, dropTrailingWS_subset ls r hr, hxr⟩
  cases rest with
  | nil =>
    simp only [wrapCore] at h
    rw [Prod.mk.injEq] at h
    constructor
    · intro line ho x hx
      exact Or.inl (hemit taken line (h.1.trans ho) x hx)
    · intro x hx
      rw [← h.2] at hx
      simp at hx
  | cons c cs =>
    by_cases hc : width < c.length
    · simp only [wrapCore, if_pos hc] at h
      rw [Prod.mk.injEq] at h
      constructor
      · intro line ho x hx
        have hmem := hemit _ line (h.1.trans ho) x hx
        rcases List.mem_flatten.mp hmem with ⟨r, hr, hxr⟩
        rcases List.mem_append.mp hr with hrt | hrp
        · exact Or.inl (List.mem_flatten.mpr ⟨r, hrt, hxr⟩)
        · have hrp2 : r = (handleLongWord width ((taken.map List.length).sum) c).1 := by
            simpa using hrp
          rw [hrp2] at hxr
          unfold handleLongWord at hxr
          have hxc : x ∈ c := List.mem_of_mem_take hxr
          exact Or.inr (by simp only [List.flatten_cons]; exact List.mem_append_left _ hxc)
      · intro x hx
        rw [← h.2] at hx
        simp only [List.flatten_cons] at hx
        rcases List.mem_append.mp hx with hx1 | hx2
        · unfold handleLongWord at hx1
          have hxc : x ∈ c := List.mem_of_mem_drop hx1
          exact Or.inr (by simp only [List.flatten_cons]; exact List.mem_append_left _ hxc)
        · exact Or.inr (by simp only [List.flatten_cons]; exact List.mem_append_right _ hx2)
    · simp only [wrapCore, if_neg hc] at h
      rw [Prod.mk.injEq] at h
      constructor
      · intro line ho x hx
        exact Or.inl (hemit taken line (h.1.trans ho) x hx)
      · intro x hx
        rw [← h.2] at hx
        exact Or.inr hx

lemma wrapStep_chars (width : Nat) (c0 : List Char) (cs0 : List (List Char)) (hl : Bool)
    {o : Option (List Char)} {rest2 : List (List Char)}
    (h : wrapStep width c0 cs0 hl = (o, rest2)) :
    (∀ line, o = some line → ∀ x ∈ line, x ∈ (c0 :: cs0).flatten) ∧
    (∀ x ∈ rest2.flatten, x ∈ (c0 :: cs0).flatten) := by
  simp only [wrapStep] at h
  rcases hgt : greedyTake width 0 (if hl && isWSChunk c0 then cs0 else c0 :: cs0)
    with ⟨taken, rest⟩
  rw [hgt] at h
  have happ := greedyTake_append width 0 (if hl && isWSChunk c0 then cs0 else c0 :: cs0)
  rw [hgt] at happ
  have hsub : ∀ x : Char, x ∈ taken.flatten ∨ x ∈ rest.flatten → x ∈ (c0 :: cs0).flatten := by
    intro x hx
    have hx2 : x ∈ (taken ++ rest).flatten := by
      rw [List.flatten_append]
      rcases hx with h1 | h2
      · exact List.mem_append_left _ h1
      · exact List.mem_append_right _ h2
    rw [happ] at hx2
    by_cases hdrop : (hl && isWSChunk c0) = true
    · rw [if_pos hdrop] at hx2
      simp only [List.flatten_cons]
      exact List.mem_append_right _ hx2
    · rw [if_neg hdrop] at hx2
      exact hx2
  have hcore := wrapCore_chars width taken rest h
  exact ⟨fun line ho x hx => hsub x (hcore.1 line ho x hx),
    fun x hx => hsub x (hcore.2 x hx)⟩

lemma wrapFuel_chars (width : Nat) :
    ∀ (fuel : Nat) (chunks : List (List Char)) (hl : Bool) (L : List Char) (x : Char),
      L ∈ wrapFuel width fuel chunks hl → x ∈ L → x ∈ chunks.flatten := by
  intro fuel
  induction fuel with
  | zero => intro chunks hl L x hL; simp [wrapFuel] at hL
  | succ f ih =>
    intro chunks hl L x hL hx
    cases chunks with
    | nil => rw [wrapFuel_nil] at hL; simp at hL
    | cons c0 cs0 =>
      rw [wrapFuel] at hL
      rcases hstep : wrapStep width c0 cs0 hl with ⟨o, rest2⟩
      rw [hstep] at hL
      have hchars := wrapStep_chars width c0 cs0 hl hstep
      cases o with
      | none => exact hchars.2 x (ih rest2 hl L x hL hx)
      | some line =>
        rcases List.mem_cons.mp hL with e | hm
        · exact hchars.1 line rfl x (e ▸ hx)
        · exact hchars.2 x (ih rest2 true L x hm hx)

lemma munge_no_bad (t : List Char) : ∀ c ∈ munge t, isBadWS c = false := by
  intro c hc
  unfold munge at hc
  rcases List.mem_map.mp hc with ⟨x, -, hx⟩
  by_cases hb : isBadWS x = true
  · rw [if_pos hb] at hx
    rw [← hx]
    decide
  · rw [if_neg hb] at hx
    rw [← hx]
    simpa using hb

lemma expandtabsAux_eq_self (l : List Char) (h : ∀ c ∈ l, c ≠ '\t') :
    ∀ col, expandtabsAux col l = l := by
  induction l with
  | nil => intro col; rfl
  | cons c cs ih =>
    intro col
    rw [expandtabsAux, if_neg (h c (List.mem_cons_self _ _))]
    by_cases h2 : c = '\n' ∨ c = '\r'
    · rw [if_pos h2, ih (fun x hx => h x (List.mem_cons_of_mem _ hx)) 0]
    · rw [if_neg h2, ih (fun x hx => h x (List.mem_cons_of_mem _ hx)) (col + 1)]

lemma munge_eq_self (l : List Char) (h : ∀ c ∈ l, isBadWS c = false) : munge l = l := by
  unfold munge
  have htab : ∀ c ∈ l, c ≠ '\t' := by
    intro c hc he
    have hbad := h c hc
    rw [he] at hbad
    cases hbad
  rw [expandtabsAux_eq_self l htab 0]
  induction l with
  | nil => rfl
  | cons c cs ih =>
    simp only [List.map_cons]
    rw [if_neg (by simp [h c (List.mem_cons_self _ _)]),
      ih (fun x hx => h x (List.mem_cons_of_mem _ hx))]
    intro x hx he
    exact htab x (List.mem_cons_of_mem _ hx) he

lemma wrapText_mem_length (width : Nat) (h1 : 1 ≤ width) (text L : List Char)
    (hL : L ∈ wrapText width text) : L.length ≤ width := by
  unfold wrapText at hL
  exact wrapFuel_line_len width h1 _ _ _ L hL

lemma wrapText_mem_chars (width : Nat) (text L : List Char) (x : Char)
    (hL : L ∈ wrapText width text) (hx : x ∈ L) : isBadWS x = false := by
  unfold wrapText at hL
  have hmem := wrapFuel_chars width _ _ _ L x hL hx
  rw [splitRuns_flatten] at hmem
  exact munge_no_bad _ x hmem

lemma wrapText_short (width : Nat) (s : List Char)
    (hlen : s.length ≤ width) (hm : munge s = s) :
    wrapText width s = if (stripTrailingWS s).isEmpty then [] else [stripTrailingWS s] := by
  unfold wrapText
  rw [hm]
  cases hsp : splitRuns s with
  | nil =>
    have hs : s = [] := (splitRuns_eq_nil_iff s).mp hsp
    subst hs
    simp [wrapFuel, chunksMeasure, stripTrailingWS, splitRuns]
  | cons c0 cs0 =>
    show wrapFuel width (chunksMeasure (c0 :: cs0) + 1) (c0 :: cs0) false =
      if (stripTrailingWS s).isEmpty then [] else [stripTrailingWS s]
    have hsum : (((c0 :: cs0).map List.length).sum) ≤ width := by
      have hfl : (((splitRuns s).map List.length).sum) = s.length := by
        rw [← List.length_flatten, splitRuns_flatten]
      rw [hsp] at hfl
      omega
    have hstep : wrapStep width c0 cs0 false = (emitLine (dropTrailingWS (c0 :: cs0)), []) := by
      have hchunks1 : (if false && isWSChunk c0 then cs0 else c0 :: cs0) = c0 :: cs0 := by
        simp
      show wrapCore width
        (greedyTake width 0 (if false && isWSChunk c0 then cs0 else c0 :: cs0)) = _
      rw [hchunks1, greedyTake_all width 0 (c0 :: cs0) (by simpa using hsum)]
      rfl
    rw [wrapFuel, hstep]
    have hds := dropT_splitRuns_flatten s
    rw [hsp] at hds
    cases hdt : dropTrailingWS (c0 :: cs0) with
    | nil =>
      rw [hdt] at hds
      simp only [List.flatten_nil] at hds
      simp only [emitLine, wrapFuel_nil]
      rw [← hds]
      rfl
    | cons d ds =>
      rw [hdt] at hds
      simp only [emitLine, wrapFuel_nil]
      have hdne : d ≠ [] := by
        have hmem : d ∈ c0 :: cs0 :=
          dropTrailingWS_subset _ d (hdt ▸ List.mem_cons_self _ _)
        exact splitRuns_ne_nil s d (hsp ▸ hmem)
      have hne : stripTrailingWS s ≠ [] := by
        rw [← hds]
        simp only [List.flatten_cons]
        intro hcontra
        rcases List.append_eq_nil.mp hcontra with ⟨hd, -⟩
        exact hdne hd
      have hie : (stripTrailingWS s).isEmpty = false := by
        cases hv : stripTrailingWS s with
        | nil => exact absurd hv hne
        | cons e es => rfl
      rw [hie]
      simp [hds]

lemma chunksOfFuel_fuel_irrel (n : Nat) (hn : 1 ≤ n) :
    ∀ (f1 f2 : Nat) (l : List Char), l.length ≤ f1 → l.length ≤ f2 →
      chunksOfFuel n f1 l = chunksOfFuel n f2 l := by
  intro f1
  induction f1 with
  | zero =>
    intro f2 l h1 h2
    have hl : l = [] := List.length_eq_zero.mp (Nat.le_zero.mp h1)
    subst hl
    cases f2 <;> rfl
  | succ f ih =>
    intro f2 l h1 h2
    cases l with
    | nil => cases f2 <;> rfl
    | cons c cs =>
      cases f2 with
      | zero => simp at h2
      | succ f2p =>
        rw [chunksOfFuel, chunksOfFuel]
        have hd : ((c :: cs).drop n).length ≤ f := by
          simp only [List.length_drop, List.length_cons]
          simp only [List.length_cons] at h1
          omega
        have hd2 : ((c :: cs).drop n).length ≤ f2p := by
          simp only [List.length_drop, List.length_cons]
          simp only [List.length_cons] at h2
          omega
        rw [ih f2p _ hd hd2]

lemma chunksOf_cons (n : Nat) (hn : 1 ≤ n) (l : List Char) (hl : l ≠ []) :
    chunksOf n l = l.take n :: chunksOf n (l.drop n) := by
  cases l with
  | nil => exact absurd rfl hl
  | cons c cs =>
    unfold chunksOf
    rw [show (c :: cs).length = cs.length + 1 from rfl, chunksOfFuel]
    rw [chunksOfFuel_fuel_irrel n hn cs.length ((c :: cs).drop n).length ((c :: cs).drop n)
      ?_ (le_refl _)]
    simp only [List.length_drop, List.length_cons]
    omega

lemma splitRuns_single (l : List Char) (h0 : l ≠ [])
    (h : ∀ c ∈ l, isPySpace c = false) : splitRuns l = [l] := by
  induction l with
  | nil => exact absurd rfl h0
  | cons c cs ih =>
    cases cs with
    | nil => rfl
    | cons d ds =>
      have hcs := ih (by simp) (fun x hx => h x (List.mem_cons_of_mem _ hx))
      have hws : isPySpace c = isPySpace d := by
        rw [h c (List.mem_cons_self _ _),
          h d (List.mem_cons_of_mem _ (List.mem_cons_self _ _))]
      exact splitRuns_cons_of_same c d ds [] (d :: ds) hcs hws

lemma rfindHyphen_none (l : List Char) (stop : Nat)
    (h : ∀ c ∈ l, (c == '-') = false) : rfindHyphen l stop = none := by
  unfold rfindHyphen
  rw [List.find?_eq_none]
  intro i hi
  rw [List.mem_reverse, List.mem_range] at hi
  have hil : i < l.length := lt_of_lt_of_le hi (min_le_right _ _)
  rw [List.getD_eq_getElem l ' ' hil]
  have hmem : l[i] ∈ l := List.getElem_mem hil
  simp [h _ hmem]

lemma nonWS_all_false (l : List Char) (hne : l ≠ [])
    (h : ∀ c ∈ l, isPySpace c = false) : isWSChunk l = false := by
  cases l with
  | nil => exact absurd rfl hne
  | cons c cs =>
    unfold isWSChunk
    simp only [List.all_cons, Bool.and_eq_false_iff]
    exact Or.inl (h c (List.mem_cons_self _ _))

lemma wrapFuel_long_word :
    ∀ (fuel : Nat) (w : List Char) (hl : Bool),
      (∀ c ∈ w, isPySpace c = false ∧ (c == '-') = false) → w ≠ [] →
      w.length + 2 ≤ fuel → wrapFuel 26 fuel [w] hl = chunksOf 26 w := by
  intro fuel
  induction fuel with
  | zero => intro w hl hclean hne hfuel; omega
  | succ f ih =>
    intro w hl hclean hne hfuel
    have hwsf : isWSChunk w = false := nonWS_all_false w hne (fun c hc => (hclean c hc).1)
    have hchunks1 : (if hl && isWSChunk w then ([] : List (List Char)) else [w]) = [w] := by
      rw [hwsf]
      simp
    by_cases hlen : w.length ≤ 26
    · have hstep : wrapStep 26 w [] hl = (some w, []) := by
        show wrapCore 26 (greedyTake 26 0 (if hl && isWSChunk w then [] else [w])) = _
        rw [hchunks1, greedyTake_all 26 0 [w] (by simpa using hlen)]
        show (emitLine (dropTrailingWS [w]), ([] : List (List Char))) = _
        rw [show dropTrailingWS [w] = if isWSChunk w then [] else [w] from rfl, hwsf]
        simp [emitLine]
      rw [wrapFuel, hstep]
      show w :: wrapFuel 26 f [] true = chunksOf 26 w
      rw [wrapFuel_nil,
        chunksOf_cons 26 (by omega) w hne,
        List.take_of_length_le hlen, List.drop_of_length_le hlen]
      rfl
    · push_neg at hlen
      have hend : hlwEnd 26 w = 26 := by
        unfold hlwEnd
        rw [if_pos hlen, rfindHyphen_none w 26 (fun c hc => (hclean c hc).2)]
      have hpiece : handleLongWord 26 0 w = (w.take 26, w.drop 26) := by
        show (w.take (hlwEnd 26 w), w.drop (hlwEnd 26 w)) = _
        rw [hend]
      have htake_ne : w.take 26 ≠ [] := by
        have hlt : (w.take 26).length = 26 := by
          rw [List.length_take]
          omega
        intro hcontra
        rw [hcontra] at hlt
        simp at hlt
      have hwsf2 : isWSChunk (w.take 26) = false :=
        nonWS_all_false _ htake_ne (fun c hc => (hclean c (List.mem_of_mem_take hc)).1)
      have hstep : wrapStep 26 w [] hl = (some (w.take 26), [w.drop 26]) := by
        show wrapCore 26 (greedyTake 26 0 (if hl && isWSChunk w then [] else [w])) = _
        rw [hchunks1]
        have hgt : greedyTake 26 0 [w] = ([], [w]) := by
          rw [greedyTake, if_neg (by omega)]
        rw [hgt]
        simp only [wrapCore, List.map_nil, List.sum_nil, if_pos hlen]
        rw [hpiece]
        rw [show ([] : List (List Char)) ++ [w.take 26] = [w.take 26] from rfl]
        rw [show dropTrailingWS [w.take 26] = if isWSChunk (w.take 26) then []
          else [w.take 26] from rfl, hwsf2]
        simp [emitLine]
      rw [wrapFuel, hstep]
      show w.take 26 :: wrapFuel 26 f [w.drop 26] true = chunksOf 26 w
      have hrec := ih (w.drop 26) true
        (fun c hc => hclean c (List.mem_of_mem_drop hc))
        (by
          intro hcontra
          have hlencontra := congrArg List.length hcontra
          simp only [List.length_drop, List.length_nil] at hlencontra
          omega)
        (by
          simp only [List.length_drop]
          omega)
      rw [hrec, chunksOf_cons 26 (by omega) w hne]

lemma chunksMeasure_cons (x : List Char) (xs : List (List Char)) :
    chunksMeasure (x :: xs) = x.length + chunksMeasure xs + 1 := by
  unfold chunksMeasure
  simp only [List.map_cons, List.sum_cons, List.length_cons]
  omega

lemma chunksMeasure_append (a b : List (List Char)) :
    chunksMeasure (a ++ b) = chunksMeasure a + chunksMeasure b := by
  unfold chunksMeasure
  simp only [List.map_append, List.sum_append, List.length_append]
  omega

lemma hlwEnd_pos (spaceLeft : Nat) (chunk : List Char) (h : 1 ≤ spaceLeft) :
    1 ≤ hlwEnd spaceLeft chunk := by
  unfold hlwEnd
  split
  · split
    · split
      · omega
      · exact h
    · exact h
  · exact h

lemma greedyTake_nil_fst (width curLen : Nat) (l : List (List Char))
    (c : List Char) (cs : List (List Char))
    (h : greedyTake width curLen l = ([], c :: cs)) :
    l = c :: cs ∧ ¬ (curLen + c.length ≤ width) := by
  cases l with
  | nil => simp [greedyTake] at h
  | cons d ds =>
    by_cases hd : curLen + d.length ≤ width
    · simp only [greedyTake, if_pos hd] at h
      rw [Prod.mk.injEq] at h
      exact absurd h.1 (by simp)
    · simp only [greedyTake, if_neg hd] at h
      rw [Prod.mk.injEq] at h
      have h2 := h.2
      refine ⟨h2, ?_⟩
      injection h2 with hdc hdscs
      rw [← hdc]
      exact hd

lemma wrapStep_measure_lt (width : Nat) (c0 : List Char) (cs0 : List (List Char)) (hl : Bool)
    {o : Option (List Char)} {rest2 : List (List Char)}
    (h : wrapStep width c0 cs0 hl = (o, rest2)) :
    chunksMeasure rest2 < chunksMeasure (c0 :: cs0) := by
  simp only [wrapStep] at h
  rcases hgt : greedyTake width 0 (if hl && isWSChunk c0 then cs0 else c0 :: cs0)
    with ⟨taken, rest⟩
  rw [hgt] at h
  have happ2 : taken ++ rest = (if hl && isWSChunk c0 then cs0 else c0 :: cs0) := by
    have happ := greedyTake_append width 0 (if hl && isWSChunk c0 then cs0 else c0 :: cs0)
    rw [hgt] at happ
    exact happ
  have hm1 : chunksMeasure taken + chunksMeasure rest ≤ chunksMeasure (c0 :: cs0) := by
    have hbase : chunksMeasure (if hl && isWSChunk c0 then cs0 else c0 :: cs0)
        ≤ chunksMeasure (c0 :: cs0) := by
      by_cases hdrop : (hl && isWSChunk c0) = true
      · rw [if_pos hdrop, chunksMeasure_cons]
        omega
      · rw [if_neg hdrop]
    calc chunksMeasure taken + chunksMeasure rest
        = chunksMeasure (taken ++ rest) := (chunksMeasure_append taken rest).symm
      _ ≤ chunksMeasure (c0 :: cs0) := by rw [happ2]; exact hbase
  have hm00 := chunksMeasure_cons c0 cs0
  cases rest with
  | nil =>
    simp only [wrapCore] at h
    rw [Prod.mk.injEq] at h
    rw [← h.2]
    have hz : chunksMeasure ([] : List (List Char)) = 0 := rfl
    omega
  | cons c cs =>
    have hcc := chunksMeasure_cons c cs
    by_cases hc : width < c.length
    · simp only [wrapCore, if_pos hc] at h
      rw [Prod.mk.injEq] at h
      rw [← h.2]
      have hlen2 : (handleLongWord width ((taken.map List.length).sum) c).2.length
          = c.length - hlwEnd (if width < 1 then 1
              else width - ((taken.map List.length).sum)) c := by
        show (c.drop _).length = _
        rw [List.length_drop]
      have hr2 := chunksMeasure_cons
        (handleLongWord width ((taken.map List.length).sum) c).2 cs
      rw [hlen2] at hr2
      cases taken with
      | nil =>
        have hz : chunksMeasure ([] : List (List Char)) = 0 := rfl
        have hsl1 : 1 ≤ (if width < 1 then 1
            else width - ((List.map List.length ([] : List (List Char))).sum)) := by
          by_cases hw1 : width < 1
          · rw [if_pos hw1]
          · rw [if_neg hw1]
            simp only [List.map_nil, List.sum_nil]
            omega
        have hpos := hlwEnd_pos _ c hsl1
        have hclen : 1 ≤ c.length := by omega
        omega
      | cons t ts =>
        have htt := chunksMeasure_cons t ts
        have hsub : c.length - hlwEnd (if width < 1 then 1
            else width - ((List.map List.length (t :: ts)).sum)) c ≤ c.length :=
          Nat.sub_le _ _
        omega
    · simp only [wrapCore, if_neg hc] at h
      rw [Prod.mk.injEq] at h
      rw [← h.2]
      cases taken with
      | nil =>
        obtain ⟨-, hgtw⟩ := greedyTake_nil_fst width 0
          (if hl && isWSChunk c0 then cs0 else c0 :: cs0) c cs (by rw [hgt])
        omega
      | cons t ts =>
        have htt := chunksMeasure_cons t ts
        omega

lemma wrapFuel_fuel_irrel (width : Nat) :
    ∀ (f1 : Nat) (chunks : List (List Char)) (hl : Bool) (f2 : Nat),
      chunksMeasure chunks < f1 → chunksMeasure chunks < f2 →
      wrapFuel width f1 chunks hl = wrapFuel width f2 chunks hl := by
  intro f1
  induction f1 with
  | zero => intro chunks hl f2 h1 h2; omega
  | succ f ih =>
    intro chunks hl f2 h1 h2
    cases chunks with
    | nil => rw [wrapFuel_nil, wrapFuel_nil]
    | cons c0 cs0 =>
      cases f2 with
      | zero => omega
      | succ f2p =>
        rw [wrapFuel, wrapFuel]
        rcases hstep : wrapStep width c0 cs0 hl with ⟨o, rest2⟩
        have hlt := wrapStep_measure_lt width c0 cs0 hl hstep
        cases o with
        | none =>
          show wrapFuel width f rest2 hl = wrapFuel width f2p rest2 hl
          exact ih rest2 hl f2p (by omega) (by omega)
        | some line =>
          show line :: wrapFuel width f rest2 true = line :: wrapFuel width f2p rest2 true
          rw [ih rest2 true f2p (by omega) (by omega)]

/-- The fuel supplied by `wrapText` is sufficient: any larger fuel yields
the same result, so the embedded loop runs the full `while chunks:` loop of
`_wrap_chunks` and never stops early. -/
lemma wrapText_fuel_sufficient (width : Nat) (text : List Char) (extra : Nat) :
    wrapFuel width (chunksMeasure (splitRuns (munge text)) + 1 + extra)
      (splitRuns (munge text)) false = wrapText width text :=
  wrapFuel_fuel_irrel width _ _ false _ (by omega) (by omega)

lemma fetchGo_attempts_le {Img : Type} (outcome : Nat → Option Img) :
    ∀ (rem attempt : Nat) (sleeps : List Nat),
      (fetchGo outcome attempt rem sleeps).2.1 ≤ attempt + rem - 1 := by
  intro rem
  induction rem with
  | zero =>
    intro attempt sleeps
    simp only [fetchGo]
    omega
  | succ r ih =>
    intro attempt sleeps
    rw [fetchGo]
    cases ho : outcome attempt with
    | some img =>
      simp only
      omega
    | none =>
      simp only
      have := ih (attempt + 1) (sleeps ++ [800])
      omega

lemma fetchGo_all_fail {Img : Type} (outcome : Nat → Option Img) :
    ∀ (rem attempt : Nat) (sleeps : List Nat),
      (∀ i, attempt ≤ i → i < attempt + rem → outcome i = none) →
      fetchGo outcome attempt rem sleeps =
        (Except.error ("Failed to fetch an Unsplash image via API after retries."),
         attempt + rem - 1, sleeps ++ List.replicate rem 800) := by
  intro rem
  induction rem with
  | zero =>
    intro attempt sleeps _
    simp [fetchGo]
  | succ r ih =>
    intro attempt sleeps h
    rw [fetchGo]
    have h0 : outcome attempt = none := h attempt (le_refl _) (by omega)
    rw [h0]
    rw [ih (attempt + 1) (sleeps ++ [800]) (fun i h1 h2 => h i (by omega) (by omega))]
    have hnum : attempt + 1 + r - 1 = attempt + (r + 1) - 1 := by omega
    have hrepl : (800 :: List.replicate r 800) = List.replicate (r + 1) 800 :=
      (List.replicate_succ 800 r).symm
    rw [hnum, List.append_assoc, List.singleton_append, hrepl]

lemma fetchGo_first_success {Img : Type} (outcome : Nat → Option Img) (img : Img) :
    ∀ (rem attempt : Nat) (sleeps : List Nat) (k : Nat),
      attempt ≤ k → k < attempt + rem → outcome k = some img →
      (∀ j, attempt ≤ j → j < k → outcome j = none) →
      fetchGo outcome attempt rem sleeps =
        (Except.ok img, k, sleeps ++ List.replicate (k - attempt) 800) := by
  intro rem
  induction rem with
  | zero =>
    intro attempt sleeps k h1 h2 h3 h4
    omega
  | succ r ih =>
    intro attempt sleeps k h1 h2 h3 h4
    rw [fetchGo]
    by_cases heq : attempt = k
    · subst heq
      rw [h3]
      simp [Nat.sub_self]
    · have hlt : attempt < k := lt_of_le_of_ne h1 heq
      have h0 : outcome attempt = none := h4 attempt (le_refl _) hlt
      rw [h0]
      rw [ih (attempt + 1) (sleeps ++ [800]) k (by omega) (by omega) h3
        (fun j hj1 hj2 => h4 j (by omega) hj2)]
      have hk : k - (attempt + 1) + 1 = k - attempt := by omega
      have hrepl : (800 :: List.replicate (k - (attempt + 1)) 800)
          = List.replicate (k - attempt) 800 := by
        rw [← List.replicate_succ, hk]
      rw [List.append_assoc, List.singleton_append, hrepl]

lemma isBadWS_isPySpace (c : Char) (h : isBadWS c = true) : isPySpace c = true := by
  unfold isBadWS at h
  unfold isPySpace
  simp only [Bool.or_eq_true] at h ⊢
  tauto

lemma clean_munge_eq_self (w : List Char) (h : ∀ c ∈ w, isPySpace c = false) :
    munge w = w := by
  apply munge_eq_self
  intro c hc
  cases hb : isBadWS c with
  | false => rfl
  | true =>
    have hp := isBadWS_isPySpace c hb
    rw [h c hc] at hp
    cases hp

/-- Claim C1 (counterexample): the layout computation does not shrink the
body font to make the card fit any height budget.  With the canvas
1024 x 1024 and a measurement function reporting a 900-pixel-high body line,
the returned card is 1030 pixels high — taller than
`maxCardHeightFraction x H` for any fraction ≤ 1 (in particular 0.8 x 1024 =
819) — while the body font size is still the initial
`max(32, W // 22) = 46`: no smaller font size was ever attempted. -/
theorem C1_cex :
    (computeLayout 1024 1024
      (fun _ _ script => if script then (400, 60) else (500, 900))
      (("hello").data)).bodyFontSize = 46 ∧
    46 = max 32 (1024 / 22) ∧
    (computeLayout 1024 1024
      (fun _ _ script => if script then (400, 60) else (500, 900))
      (("hello").data)).boxHeight = 1030 ∧
    ¬ ((computeLayout 1024 1024
      (fun _ _ script => if script then (400, 60) else (500, 900))
      (("hello").data)).boxHeight ≤ 819) := by
  decide

/-- Claim C1 (amended): `compose_image_with_pillow` computes the title and
body font sizes once, as `max(48, W//12)` and `max(32, W//22)`; they do not
depend on the quote text or on the measured heights, and no shrink loop
exists, so exactly one body font size is ever used per layout. -/
theorem C1_thm (W H : Nat) (measure : List Char → Nat → Bool → Nat × Nat)
    (quote : List Char) :
    (computeLayout W H measure quote).titleFontSize = max 48 (W / 12) ∧
    (computeLayout W H measure quote).bodyFontSize = max 32 (W / 22) :=
  ⟨rfl, rfl⟩

/-- Claim C2 (counterexample): the returned card height is neither bounded
by `0.8 x H = 819` nor clamped to it: with a 1000-pixel body-line height the
card height is 1120, which exceeds 819 and is not equal to it. -/
theorem C2_cex :
    (computeLayout 1024 1024
      (fun _ _ script => if script then (300, 50) else (200, 1000))
      (("sunrise").data)).boxHeight = 1120 ∧
    ¬ ((computeLayout 1024 1024
      (fun _ _ script => if script then (300, 50) else (200, 1000))
      (("sunrise").data)).boxHeight ≤ 819) ∧
    (computeLayout 1024 1024
      (fun _ _ script => if script then (300, 50) else (200, 1000))
      (("sunrise").data)).boxHeight ≠ 819 := by
  decide

/-- Claim C2 (amended): the card height
`box_height = title_h + 30 + body_h + 40` returned by the layout is
unbounded: for every candidate bound (so for every
`maxCardHeightFraction x H` in particular) there are a measurement function
and a quote whose layout exceeds it.  No clamping to a fraction of the
canvas height occurs anywhere. -/
theorem C2_thm (bound : Nat) :
    ∃ (measure : List Char → Nat → Bool → Nat × Nat) (quote : List Char),
      bound < (computeLayout 1024 1024 measure quote).boxHeight := by
  refine ⟨fun _ _ _ => (0, bound + 1), ("hi").data, ?_⟩
  have hw : wrapText 26 (("hi").data) = [(("hi").data)] := by decide
  simp only [computeLayout, hw, List.map_cons, List.map_nil, List.sum_cons, List.sum_nil,
    List.length_cons, List.length_nil]
  omega

/-- Claim C3 (counterexample): the wrapper is character-count based
(`textwrap.wrap(quote, width=26)`) and never consults pixel measurement, so
a wrapped line can be measured wider than the card.  The 26-character
two-word quote below stays on one line; at 50 pixels per character it
measures 1300 pixels, exceeding the card's inner width
`W - 2*int(0.08*W) = 862` (the only horizontal bound in the code), and the
line is not a single word. -/
theorem C3_cex :
    (computeLayout 1024 1024 (fun text _ _ => (text.length * 50, 40))
      (("aaaaaaaaaaaa bbbbbbbbbbbbb").data)).bodyLines =
        [("aaaaaaaaaaaa bbbbbbbbbbbbb").data] ∧
    ((("aaaaaaaaaaaa bbbbbbbbbbbbb").data).length * 50 = 1300) ∧
    (computeLayout 1024 1024 (fun text _ _ => (text.length * 50, 40))
      (("aaaaaaaaaaaa bbbbbbbbbbbbb").data)).boxWidth = 862 ∧
    ¬ ((1300 : Nat) ≤ 862) ∧
    (' ' ∈ ("aaaaaaaaaaaa bbbbbbbbbbbbb").data) := by
  decide

/-- Claim C3 (amended): the width guarantee of the wrapper is a character
bound, not a pixel bound: every line returned by
`textwrap.wrap(text, width=26)` has at most 26 characters (long words are
broken, so no exception is needed). -/
theorem C3_thm (text L : List Char) (hL : L ∈ wrapText 26 text) : L.length ≤ 26 :=
  wrapText_mem_length 26 (by omega) text L hL

/-- Witness for C3_thm at a concrete text and line. -/
theorem C3_thm_witness :
    (("hello world").data ∈ wrapText 26 (("hello world").data)) ∧
    (("hello world").data).length ≤ 26 :=
  ⟨by decide, C3_thm (("hello world").data) (("hello world").data) (by decide)⟩

/-- Claim C4 (counterexample): a single 40-character word is NOT placed
alone on one overflowing line: `textwrap.wrap` (with its default
`break_long_words=True`) splits it at character level into a 26-character
line and a 14-character line. -/
theorem C4_cex :
    wrapText 26 (List.replicate 40 'a') =
      [List.replicate 26 'a', List.replicate 14 'a'] ∧
    wrapText 26 (List.replicate 40 'a') ≠ [List.replicate 40 'a'] := by
  decide

/-- Claim C4 (amended): a single hyphen-free word longer than the
26-character limit is broken at character level into consecutive chunks of
26 characters (the last chunk possibly shorter); it is never left alone on
a single overflowing line. -/
theorem C4_thm (word : List Char)
    (hclean : ∀ c ∈ word, isPySpace c = false ∧ (c == '-') = false)
    (hlong : 26 < word.length) :
    wrapText 26 word = chunksOf 26 word := by
  have hne : word ≠ [] := by
    intro h
    rw [h] at hlong
    simp at hlong
  have hmunge : munge word = word :=
    clean_munge_eq_self word (fun c hc => (hclean c hc).1)
  show wrapFuel 26 (chunksMeasure (splitRuns (munge word)) + 1) (splitRuns (munge word))
    false = chunksOf 26 word
  rw [hmunge, splitRuns_single word hne (fun c hc => (hclean c hc).1)]
  have hcm : chunksMeasure [word] = word.length + 1 := by
    unfold chunksMeasure
    simp
  rw [hcm]
  exact wrapFuel_long_word (word.length + 1 + 1) word false hclean hne (by omega)

/-- Witness for C4_thm on a concrete 30-character word. -/
theorem C4_thm_witness :
    ((∀ c ∈ List.replicate 30 'a', isPySpace c = false ∧ (c == '-') = false) ∧
      26 < (List.replicate 30 'a').length) ∧
    wrapText 26 (List.replicate 30 'a') = chunksOf 26 (List.replicate 30 'a') :=
  ⟨⟨by decide, by decide⟩, C4_thm (List.replicate 30 'a') (by decide) (by decide)⟩

/-- Claim C5 (counterexample): with a measurement function returning (0,0)
for every text and font, the layout computation still returns a fully
defined (degenerate but well-specified) layout, and `_load_font` with no
existing font path returns `ImageFont.load_default()` — no
`FontResolutionError` is signalled anywhere (no such error exists in the
code). -/
theorem C5_cex :
    computeLayout 1024 1024 (fun _ _ _ => (0, 0)) (("hi").data) =
      { titleFontSize := 85, bodyFontSize := 46,
        bodyLines := [("hi").data],
        boxX0 := 81, boxY0 := 477, boxWidth := 862, boxHeight := 70,
        titleX := 512, titleY := 497,
        linePos := [(512, 512)] } ∧
    loadFont (fun _ => false) 85 true = PillowFont.defaultFont := by
  decide

/-- Claim C5 (amended): when none of the candidate font paths exists,
`_load_font` falls back to the Pillow default font instead of raising; the
layout computation then proceeds normally (see C5's counterexample for the
degenerate-measurement layout it produces). -/
theorem C5_thm (pathExists : String → Bool) (size : Nat) (script : Bool)
    (h : ∀ p ∈ fontCandidates script, pathExists p = false) :
    loadFont pathExists size script = PillowFont.defaultFont := by
  unfold loadFont
  rw [List.find?_eq_none.mpr (fun p hp => by simp [h p hp])]

/-- Witness for C5_thm with no path existing. -/
theorem C5_thm_witness :
    (∀ p ∈ fontCandidates true, (fun (_ : String) => false) p = false) ∧
    loadFont (fun _ => false) 48 true = PillowFont.defaultFont :=
  ⟨fun _ _ => rfl, C5_thm (fun _ => false) 48 true (fun _ _ => rfl)⟩

/-- Claim C6: `_fetch_unsplash_via_api` makes at most `MAX_RETRIES = 8`
attempts; if all 8 attempts fail it raises
`RuntimeError("Failed to fetch an Unsplash image via API after retries.")`
after 8 fixed 0.8-second (800 ms) sleeps; and if attempt `k` is the first
to succeed it returns that image immediately after exactly `k` attempts and
`k - 1` sleeps. -/
theorem C6_thm {Img : Type} (outcome : Nat → Option Img) :
    ((fetchUnsplash outcome).2.1 ≤ MAX_RETRIES) ∧
    ((∀ i, 1 ≤ i → i ≤ MAX_RETRIES → outcome i = none) →
      fetchUnsplash outcome =
        (Except.error ("Failed to fetch an Unsplash image via API after retries."), 8,
          List.replicate 8 800)) ∧
    (∀ k img, 1 ≤ k → k ≤ MAX_RETRIES → outcome k = some img →
      (∀ j, 1 ≤ j → j < k → outcome j = none) →
      fetchUnsplash outcome = (Except.ok img, k, List.replicate (k - 1) 800)) := by
  refine ⟨?_, ?_, ?_⟩
  · have hle := fetchGo_attempts_le outcome MAX_RETRIES 1 []
    unfold fetchUnsplash
    unfold MAX_RETRIES at hle ⊢
    omega
  · intro h
    unfold fetchUnsplash
    rw [fetchGo_all_fail outcome MAX_RETRIES 1 []
      (fun i h1 h2 => h i h1 (by unfold MAX_RETRIES at h2 ⊢; omega))]
    unfold MAX_RETRIES
    simp
  · intro k img h1 h2 h3 h4
    unfold fetchUnsplash
    rw [fetchGo_first_success outcome img MAX_RETRIES 1 [] k h1
      (by unfold MAX_RETRIES at h2 ⊢; omega) h3 (fun j hj1 hj2 => h4 j hj1 hj2)]
    simp

/-- Witness for C6_thm: all eight attempts failing yields the error with
eight sleeps; first success at attempt 3 yields that image after exactly
three attempts and two sleeps. -/
theorem C6_thm_witness :
    fetchUnsplash (fun _ => (none : Option Nat)) =
      (Except.error ("Failed to fetch an Unsplash image via API after retries."), 8,
        List.replicate 8 800) ∧
    fetchUnsplash (fun i => if i = 3 then some 42 else (none : Option Nat)) =
      (Except.ok 42, 3, List.replicate 2 800) := by
  constructor
  · exact (C6_thm (fun _ => (none : Option Nat))).2.1 (fun i _ _ => rfl)
  · refine (C6_thm (fun i => if i = 3 then some 42 else (none : Option Nat))).2.2
      3 42 (by omega) (by decide) rfl ?_
    intro j hj1 hj2
    have hj : j = 1 ∨ j = 2 := by omega
    rcases hj with hj | hj <;> subst hj <;> rfl

/-- Claim C7: the layout computation is a pure function of the canvas size,
the quote, and the measurement function: two invocations with equal inputs
(in particular with two extensionally equal deterministic measurement
functions) return identical `LayoutResult`s — same fonts, wrapped lines,
card box, and per-line positions. -/
theorem C7_thm (W H : Nat) (m1 m2 : List Char → Nat → Bool → Nat × Nat)
    (quote : List Char) (h : ∀ t s b, m1 t s b = m2 t s b) :
    computeLayout W H m1 quote = computeLayout W H m2 quote := by
  have hm : m1 = m2 := funext fun t => funext fun s => funext fun b => h t s b
  rw [hm]

/-- Witness for C7_thm at a concrete measurement function and quote. -/
theorem C7_thm_witness :
    (∀ (t : List Char) (s : Nat) (b : Bool),
      (fun (_ : List Char) (_ : Nat) (_ : Bool) => ((10, 20) : Nat × Nat)) t s b =
      (fun (_ : List Char) (_ : Nat) (_ : Bool) => ((10, 20) : Nat × Nat)) t s b) ∧
    computeLayout 1024 1024 (fun _ _ _ => (10, 20)) (("dawn").data) =
      computeLayout 1024 1024 (fun _ _ _ => (10, 20)) (("dawn").data) :=
  ⟨fun _ _ _ => rfl, C7_thm 1024 1024 _ _ (("dawn").data) (fun _ _ _ => rfl)⟩

/-- Claim C8 (counterexample): wrapping is NOT idempotent.  For the text
`'a'*20 + ' '*6 + 'b'*30` at width 26, the first produced line is
`'a'*20 + ' '*6` (the line is exactly full when the long word arrives, so
the empty break piece is dropped instead of the whitespace chunk);
re-wrapping that line yields `['a'*20]` — the trailing whitespace is
dropped — so re-wrapping the wrapped sequence changes it. -/
theorem C8_cex :
    ((List.replicate 20 'a' ++ List.replicate 6 ' ') ∈
      wrapText 26 (List.replicate 20 'a' ++ List.replicate 6 ' ' ++ List.replicate 30 'b')) ∧
    wrapText 26 (List.replicate 20 'a' ++ List.replicate 6 ' ') = [List.replicate 20 'a'] ∧
    (wrapText 26
        (List.replicate 20 'a' ++ List.replicate 6 ' ' ++ List.replicate 30 'b')).flatMap
        (wrapText 26) ≠
      wrapText 26 (List.replicate 20 'a' ++ List.replicate 6 ' ' ++ List.replicate 30 'b') := by
  decide

/-- Claim C8 (amended): re-wrapping a produced line never splits it
further: for every line `L` of a wrapped text, `wrap(L)` is exactly one
line, namely `L` with its trailing whitespace removed (or no line at all if
`L` was pure whitespace).  The original sequence is reproduced exactly when
no produced line carries trailing whitespace. -/
theorem C8_thm (width : Nat) (text L : List Char) (hw : 1 ≤ width)
    (hL : L ∈ wrapText width text) :
    wrapText width L =
      if (stripTrailingWS L).isEmpty then [] else [stripTrailingWS L] := by
  have hlen := wrapText_mem_length width hw text L hL
  have hm : munge L = L :=
    munge_eq_self L (fun c hc => wrapText_mem_chars width text L c hL hc)
  exact wrapText_short width L hlen hm

/-- Witness for C8_thm at a concrete wrapped line. -/
theorem C8_thm_witness :
    ((1 : Nat) ≤ 26 ∧
      ("good morning sunshine").data ∈ wrapText 26 (("good morning sunshine").data)) ∧
    wrapText 26 (("good morning sunshine").data) =
      (if (stripTrailingWS (("good morning sunshine").data)).isEmpty then []
        else [stripTrailingWS (("good morning sunshine").data)]) :=
  ⟨⟨by omega, by decide⟩,
    C8_thm 26 (("good morning sunshine").data) (("good morning sunshine").data)
      (by omega) (by decide)⟩

/-- Claim C9: when cleaning the model response leaves no usable quote line
(`cleaned` is empty), `get_quote_via_api` returns the fixed static fallback
string instead of failing. -/
theorem C9_thm (content : List Char) (choose : List (List Char) → List Char)
    (h : cleanedQuotes content = []) :
    getQuoteViaApi content choose = fallbackQuote := by
  simp [getQuoteViaApi, h]

/-- Witness for C9_thm on a response consisting only of numbering and
bullets. -/
theorem C9_thm_witness :
    cleanedQuotes (("1. \n- ").data) = [] ∧
    getQuoteViaApi (("1. \n- ").data) (fun _ => []) = fallbackQuote :=
  ⟨by decide, C9_thm (("1. \n- ").data) (fun _ => []) (by decide)⟩

/-- Claim C10: the dispatched message includes a `body` field exactly when
the caption contains at least one non-whitespace character; a
whitespace-only caption produces a media-only message with no body, and
when a body is present it is the caption verbatim.  The media list is
always the single uploaded URL. -/
theorem C10_thm (fromAddr toAddr caption mediaUrl : String) :
    ((sendWhatsapp fromAddr toAddr caption mediaUrl).body.isSome = true ↔
      ∃ ch ∈ caption.data, isPySpace ch = false) ∧
    ((sendWhatsapp fromAddr toAddr caption mediaUrl).body = none ↔
      ∀ ch ∈ caption.data, isPySpace ch = true) ∧
    (sendWhatsapp fromAddr toAddr caption mediaUrl).mediaUrl = [mediaUrl] ∧
    (∀ s, (sendWhatsapp fromAddr toAddr caption mediaUrl).body = some s → s = caption) := by
  have hbody : (sendWhatsapp fromAddr toAddr caption mediaUrl).body
      = if (pyStrip caption.data).isEmpty then none else some caption := rfl
  have hmedia : (sendWhatsapp fromAddr toAddr caption mediaUrl).mediaUrl = [mediaUrl] := rfl
  by_cases h : (pyStrip caption.data).isEmpty = true
  · have hnil : pyStrip caption.data = [] := by
      cases hv : pyStrip caption.data with
      | nil => rfl
      | cons x xs =>
        rw [hv] at h
        simp at h
    have hall := (pyStrip_eq_nil_iff caption.data).mp hnil
    rw [hbody, if_pos h]
    refine ⟨?_, ?_, hmedia, ?_⟩
    · constructor
      · intro hf
        simp at hf
      · rintro ⟨ch, hch, hws⟩
        rw [hall ch hch] at hws
        cases hws
    · exact ⟨fun _ => hall, fun _ => rfl⟩
    · intro s hs
      cases hs
  · have hne : pyStrip caption.data ≠ [] := by
      intro hv
      rw [hv] at h
      exact h rfl
    have hex : ∃ ch ∈ caption.data, isPySpace ch = false := by
      by_contra hcon
      push_neg at hcon
      apply hne
      apply (pyStrip_eq_nil_iff caption.data).mpr
      intro c hc
      cases hv : isPySpace c with
      | true => rfl
      | false => exact absurd hv (hcon c hc)
    rw [hbody, if_neg h]
    refine ⟨?_, ?_, hmedia, ?_⟩
    · exact ⟨fun _ => hex, fun _ => rfl⟩
    · constructor
      · intro hss
        cases hss
      · intro hall2
        exfalso
        rcases hex with ⟨ch, hch, hws⟩
        rw [hall2 ch hch] at hws
        cases hws
    · intro s hs
      injection hs with hs2
      exact hs2.symm

end GoodMorning
